import Mathlib

/-!
Verification of the gotestdeps dependency-graph tool.

The repository contains two near-duplicate revisions of one Go program
(`src/main.go` and `src/unnamed/part_000`, the latter being the current,
three-classification revision).  This file embeds both revisions' core
functions over a shallow model of the package graph returned by the
external resolver (`golang.org/x/tools/go/packages`):

  * a package is identified by an element of `Fin n` (pointer identity in
    Go), with an optional owning module (`Module` pointer may be nil), an
    optional main-module flag and a list of direct imports whose entries
    may be `none` (nil pointers in the Go import map);
  * Go maps used as sets become `Finset`s; where a claim is about
    independence from map iteration order, the map is instead passed as an
    explicit enumeration (a `List`) and the theorem quantifies over
    re-orderings of that enumeration;
  * `log.Fatal` (print to stderr, exit non-zero) becomes `Except.error`.
-/

namespace Gotestdeps

/-- The package graph handed over by the resolver: `n` distinct package
identities; `imports p` the list of direct imports of `p` (a `none` entry
models a nil `*packages.Package` in the Go import map); `pkgModule p` the
owning module path (`none` models a nil `p.Module` pointer); `moduleMain p`
models `p.Module.Main` (meaningful only when `pkgModule p` is not `none`). -/
structure PkgGraph (n : Nat) where
  imports : Fin n → List (Option (Fin n))
  pkgModule : Fin n → Option String
  moduleMain : Fin n → Bool

variable {n : Nat}

/-- The non-nil direct imports of a package: exactly the nodes the Go loop
`for _, imp := range p.Imports { if imp != nil { q.PushBack(imp) } }`
enqueues. -/
def succs (g : PkgGraph n) (p : Fin n) : List (Fin n) :=
  (g.imports p).filterMap id

/-- Work loop of `traverse` (src/unnamed/part_000 lines 84-103): a worklist
`stack` (the Go code pushes to and pops from the back of a `list.List`, so
the discipline is LIFO; the list here keeps the next node to be dequeued at
the head) and the `seen` set.  Returns the list of packages in the order the
visitor callback is invoked on them. -/
def traverseAux (g : PkgGraph n) (stack : List (Fin n)) (seen : Finset (Fin n)) :
    List (Fin n) :=
  match stack with
  | [] => []
  | p :: rest =>
    if p ∈ seen then
      traverseAux g rest seen
    else
      p :: traverseAux g ((succs g p).reverse ++ rest) (insert p seen)
termination_by ((Finset.univ \ seen).card, stack.length)
decreasing_by
· apply Prod.Lex.right
  simp
· apply Prod.Lex.left
  rw [Finset.sdiff_insert]
  exact Finset.card_erase_lt_of_mem (by simp [*])

/-- `traverse` (src/unnamed/part_000 lines 84-103, src/main.go lines 79-98):
visit order of the whole walk.  The Go code seeds the queue with the roots
in order and dequeues from the back, so the first node dequeued is the last
root pushed. -/
def traverse (g : PkgGraph n) (roots : List (Fin n)) : List (Fin n) :=
  traverseAux g roots.reverse ∅

/-- Reachability in the package import graph: a node is reachable when it is
a root or a non-nil import of a reachable node. -/
inductive Reaches (g : PkgGraph n) (roots : List (Fin n)) : Fin n → Prop where
  | root {p : Fin n} : p ∈ roots → Reaches g roots p
  | step {p q : Fin n} : Reaches g roots p → some q ∈ g.imports p → Reaches g roots q

/-- `modulePathOf` (src/unnamed/part_000 lines 129-134): the owning module
path of a possibly-nil package pointer; empty string when the package or its
`Module` field is nil. -/
def modulePathOf (g : PkgGraph n) (p : Option (Fin n)) : String :=
  match p with
  | some p' =>
    match g.pkgModule p' with
    | some path => path
    | none => ""
  | none => ""

/-- The inner loop body of `buildEdges` (src/unnamed/part_000 lines
114-124): process one import entry of a package owned by module `fromP`,
recording a deduplicated module edge unless the import's module is empty or
identical to `fromP`. -/
def edgeInsert (g : PkgGraph n) (fromP : String)
    (st2 : Finset (String × String) × Finset String) (imp : Option (Fin n)) :
    Finset (String × String) × Finset String :=
  let toP := modulePathOf g imp
  if toP = "" ∨ toP = fromP then st2
  else (insert (fromP, toP) st2.1, insert toP st2.2)

/-- The visitor body of `buildEdges` (src/unnamed/part_000 lines 108-125):
starting from the accumulated `(edges, nodes)` state, process one visited
package: skip it when it has no owning module, otherwise add its module to
the node set and fold its import list with `edgeInsert`. -/
def buildEdgesStep (g : PkgGraph n)
    (st : Finset (String × String) × Finset String) (p : Fin n) :
    Finset (String × String) × Finset String :=
  let fromP := modulePathOf g (some p)
  if fromP = "" then st
  else (g.imports p).foldl (edgeInsert g fromP) (st.1, insert fromP st.2)

/-- `buildEdges` (src/unnamed/part_000 lines 105-127, src/main.go lines
100-122): the module-level edge set and node set obtained by running
`buildEdgesStep` over every package `traverse` visits, starting from empty
maps. -/
def buildEdges (g : PkgGraph n) (pkgs : List (Fin n)) :
    Finset (String × String) × Finset String :=
  (traverse g pkgs).foldl (buildEdgesStep g) (∅, ∅)

/-- `difference` (src/unnamed/part_000 lines 208-216, src/main.go lines
192-200): the keys of `a` that are absent from `b`. -/
def difference (a b : Finset String) : Finset String :=
  a.filter (fun k => k ∉ b)

/-- The `mods` accumulation of `loadModuleSet` (src/unnamed/part_000 lines
70-79): every visited package's module path, nil modules skipped. -/
def modsOf (g : PkgGraph n) (visited : List (Fin n)) : Finset String :=
  (visited.filterMap g.pkgModule).toFinset

/-- The `mainMod` accumulation of `loadModuleSet` (src/unnamed/part_000
lines 71-79): `mainMod` starts as `""` and is overwritten by the module path
of every visited package whose module has `Main == true`, so the last such
visit wins. -/
def mainModOf (g : PkgGraph n) (visited : List (Fin n)) : String :=
  visited.foldl
    (fun acc p =>
      match g.pkgModule p with
      | some path => if g.moduleMain p then path else acc
      | none => acc)
    ""

/-- What the resolver call `packages.Load` and the diagnostic scan
`packages.PrintErrors` report for one load: an optional load error, the root
packages, and the number of per-package diagnostic errors printed. -/
structure ResolveResult (n : Nat) where
  loadErr : Option String
  roots : List (Fin n)
  numErrors : Nat

/-- `loadModuleSet` (src/unnamed/part_000 lines 57-81; src/main.go's
`loadPkgsAndModuleSet`, lines 56-76, has the same error policy): abort with
an error (Go: `log.Fatal`, which writes to stderr and exits non-zero) when
`packages.Load` failed or any package carries diagnostic errors; otherwise
traverse the graph and collect the main module and the module universe. -/
def loadModuleSet (g : PkgGraph n) (r : ResolveResult n) :
    Except String (String × List (Fin n) × Finset String) :=
  match r.loadErr with
  | some e => Except.error ("packages.Load: " ++ e)
  | none =>
    if r.numErrors > 0 then Except.error "aborting due to previous errors"
    else
      let visited := traverse g r.roots
      Except.ok (mainModOf g visited, r.roots, modsOf g visited)

/-- Colour constants (src/unnamed/part_000 lines 22-26). -/
def testColor : String := "#ffdddd"

def nonTestColor : String := "#ececff"

def mainColor : String := "#ddffdd"

/-- `sort.Strings`: lexicographic sort of a string list.  Any correct sort
produces the same list (sorting is unique up to the order), so the concrete
algorithm is interchangeable. -/
def sortStrings (l : List String) : List String :=
  l.insertionSort (· ≤ ·)

/-- Go's `%q` verb on a module path (module paths contain no characters that
`strconv.Quote` escapes, so quoting is plain double quotes). -/
def goQuote (s : String) : String := "\"" ++ s ++ "\""

/-- One node declaration line, `fmt.Fprintf(out, "    N%d[%q]\n", i, name)`
(src/unnamed/part_000 line 162). -/
def nodeLine (i : Nat) (name : String) : String :=
  "    N" ++ toString i ++ "[" ++ goQuote name ++ "]\n"

/-- One edge line, `fmt.Fprintf(out, "    N%d --> N%d\n", ...)`
(src/unnamed/part_000 line 178). -/
def edgeLine (i j : Nat) : String :=
  "    N" ++ toString i ++ " --> N" ++ toString j ++ "\n"

/-- The `indexes` map of `writeDot` (src/unnamed/part_000 lines 157-160):
position of a name in the sorted node list; a Go map access with a missing
key yields the zero value 0. -/
def indexes (allNodes : List String) (name : String) : Nat :=
  if name ∈ allNodes then allNodes.indexOf name else 0

/-- The Go map access `edges[f]` on the nested edge map, passed here as an
explicit enumeration: the target list stored under key `f`, nil (empty) when
`f` is absent. -/
def tosOf (edges : List (String × List String)) (f : String) : List String :=
  (((edges.find? (fun e => e.1 == f)).map Prod.snd)).getD []

/-- The node declaration section of `writeDot` (src/unnamed/part_000 lines
151-163): the sorted node list, each entry rendered with its index. -/
def nodeDeclLines (nodes : List String) : List String :=
  (sortStrings nodes).enum.map (fun p => nodeLine p.1 p.2)

/-- The `(from, to)` pairs in the order the edge loop of `writeDot`
(src/unnamed/part_000 lines 165-180) emits them: sources sorted, targets
sorted within each source. -/
def edgePairs (edges : List (String × List String)) : List (String × String) :=
  ((sortStrings (edges.map Prod.fst)).map
    (fun f => (sortStrings (tosOf edges f)).map (fun t => (f, t)))).flatten

/-- The edge section of `writeDot`: one `edgeLine` per emitted pair, indices
looked up in the sorted node list. -/
def edgeLinesOf (edges : List (String × List String)) (nodes : List String) :
    List String :=
  (edgePairs edges).map
    (fun e => edgeLine (indexes (sortStrings nodes) e.1)
      (indexes (sortStrings nodes) e.2))

/-- The `nodeColor` closure of `writeDot` (src/unnamed/part_000 lines
181-193): collect the indices of the nodes the classification predicate
selects; an empty selection emits nothing, otherwise one `classDef` line and
one `class` membership line. -/
def nodeColor (allNodes : List String) (className color : String)
    (choose : String → Bool) : String :=
  let selected := ((allNodes.enum.filter (fun p => choose p.2)).map
    (fun p => "N" ++ toString p.1))
  if selected.isEmpty then ""
  else
    "    classDef " ++ className ++ " fill:" ++ color ++
      ",stroke:#333,stroke-width:1px;\n" ++
    "    class " ++ String.intercalate "," selected ++ " " ++ className ++ ";\n"

/-- The classification predicate of the `mainModule` group
(src/unnamed/part_000 lines 194-196). -/
def chooseMainModule (mainMod name : String) : Bool :=
  name == mainMod

/-- The classification predicate of the `testOnlyDep` group
(src/unnamed/part_000 lines 197-200). -/
def chooseTestOnlyDep (mainMod : String) (testOnly : List String)
    (name : String) : Bool :=
  testOnly.contains name && name != mainMod

/-- The classification predicate of the `regularDep` group
(src/unnamed/part_000 lines 201-204). -/
def chooseRegularDep (mainMod : String) (testOnly : List String)
    (name : String) : Bool :=
  !(testOnly.contains name) && name != mainMod

/-- `writeDot` (src/unnamed/part_000 lines 136-206), the current revision:
the full rendered text.  The Go maps `edges`, `nodes` and `testOnly` arrive
as enumerations (`nodes` and `testOnly` as key lists, `edges` as an
association list); the membership-only uses (`testOnly[name]`) become list
membership, and all ordering is re-established by sorting, as in the
source. -/
def writeDot (mainMod : String) (edges : List (String × List String))
    (nodes testOnly : List String) : String :=
  "```mermaid\n" ++ "graph LR\n" ++
  String.join (nodeDeclLines nodes) ++
  String.join (edgeLinesOf edges nodes) ++
  nodeColor (sortStrings nodes) "mainModule" mainColor
    (chooseMainModule mainMod) ++
  nodeColor (sortStrings nodes) "testOnlyDep" testColor
    (chooseTestOnlyDep mainMod testOnly) ++
  nodeColor (sortStrings nodes) "regularDep" nonTestColor
    (chooseRegularDep mainMod testOnly) ++
  "```\n"

/-- The `class` membership line of the older revision's `writeDot`
(src/main.go lines 176-189): the indices (in sorted node order) of the
test-only nodes, comma-separated; printed only when `len(testOnly) > 0`. -/
def redClassLine (nodes testOnly : List String) : String :=
  "    class " ++
    String.intercalate ","
      (((sortStrings nodes).enum.filter (fun p => testOnly.contains p.2)).map
        (fun p => "N" ++ toString p.1)) ++
    " red;\n"

/-- `writeDot` of the older revision (src/main.go lines 131-190): a single
hard-coded `classDef red` style declaration emitted unconditionally, then
the membership line only when the test-only map is non-empty. -/
def writeDotV1 (edges : List (String × List String))
    (nodes testOnly : List String) : String :=
  "graph LR\n" ++
  String.join (nodeDeclLines nodes) ++
  String.join (edgeLinesOf edges nodes) ++
  "    classDef red fill:#ffdddd,stroke:#333,stroke-width:1px;\n" ++
  (if testOnly.length > 0 then redClassLine nodes testOnly else "")

/-- The node-set augmentation in `main` (src/unnamed/part_000 lines 48-51,
src/main.go lines 42-45): `for m := range testOnly { nodes[m] = ... }`. -/
def nodesWithTestOnly (nodes testOnly : Finset String) : Finset String :=
  nodes ∪ testOnly

/-- A canonical enumeration of the nested Go edge map, for handing a
`Finset` of edges to `writeDot`. -/
def edgesEnum (edges : Finset (String × String)) : List (String × List String) :=
  ((edges.image Prod.fst).sort (· ≤ ·)).map
    (fun f => (f, ((edges.filter (fun e => e.1 = f)).image Prod.snd).sort (· ≤ ·)))

/-- `main` (src/unnamed/part_000 lines 28-55) after flag parsing: load the
module universe twice (the two loads may see different package graphs, hence
the two independent graph/result pairs), diff the universes, build the
module edges from the test-inclusive graph, force test-only modules into the
node set, and render.  Either load erroring aborts the run before anything
is written to standard output. -/
def mainRun {n1 n2 : Nat} (g1 : PkgGraph n1) (r1 : ResolveResult n1)
    (g2 : PkgGraph n2) (r2 : ResolveResult n2) : Except String String :=
  match loadModuleSet g1 r1 with
  | Except.error e => Except.error e
  | Except.ok (mainMod, _, noTestMods) =>
    match loadModuleSet g2 r2 with
    | Except.error e => Except.error e
    | Except.ok (_, testPkgs, withTestMods) =>
      let testOnly := difference withTestMods noTestMods
      let en := buildEdges g2 testPkgs
      let nodes := nodesWithTestOnly en.2 testOnly
      Except.ok (writeDot mainMod (edgesEnum en.1)
        (nodes.sort (· ≤ ·)) (testOnly.sort (· ≤ ·)))

/-- Lexicographic order on emitted edge pairs: strictly earlier source, or
the same source with a target no later. -/
def lexLePair (a b : String × String) : Prop :=
  a.1 < b.1 ∨ (a.1 = b.1 ∧ a.2 ≤ b.2)

/-- The empty package graph, used to instantiate theorems at concrete
inputs. -/
def emptyGraph : PkgGraph 0 where
  imports := fun p => p.elim0
  pkgModule := fun p => p.elim0
  moduleMain := fun p => p.elim0

/-- A resolver outcome where `packages.Load` itself failed. -/
def errResolve : ResolveResult 0 :=
  { loadErr := some "boom", roots := [], numErrors := 0 }

/-- A clean resolver outcome over the empty graph. -/
def okResolve : ResolveResult 0 :=
  { loadErr := none, roots := [], numErrors := 0 }

/-! ## Traversal engine: every reachable package is visited exactly once -/

theorem mem_succs {g : PkgGraph n} {p q : Fin n} :
    q ∈ succs g p ↔ some q ∈ g.imports p := by
  constructor
  · intro h
    obtain ⟨a, ha, haq⟩ := List.mem_filterMap.mp h
    exact haq ▸ ha
  · intro h
    exact List.mem_filterMap.mpr ⟨some q, h, rfl⟩

theorem traverseAux_spec (g : PkgGraph n) :
    ∀ (stack : List (Fin n)) (seen : Finset (Fin n)),
    (∀ s ∈ seen, ∀ q ∈ succs g s, q ∈ seen ∨ q ∈ stack) →
    (traverseAux g stack seen).Nodup
    ∧ (∀ q ∈ traverseAux g stack seen, q ∉ seen)
    ∧ (∀ p ∈ stack, p ∈ seen ∨ p ∈ traverseAux g stack seen)
    ∧ (∀ s, (s ∈ seen ∨ s ∈ traverseAux g stack seen) →
        ∀ q ∈ succs g s, q ∈ seen ∨ q ∈ traverseAux g stack seen) := by
  intro stack seen
  induction stack, seen using traverseAux.induct g with
  | case1 seen =>
    intro hinv
    simp only [traverseAux]
    refine ⟨List.nodup_nil, by simp, by simp, ?_⟩
    intro s hs q hq
    rcases hs with hs | hs
    · rcases hinv s hs q hq with h | h
      · exact Or.inl h
      · simp at h
    · simp at hs
  | case2 seen p rest hp ih =>
    intro hinv
    have hinv' : ∀ s ∈ seen, ∀ q ∈ succs g s, q ∈ seen ∨ q ∈ rest := by
      intro s hs q hq
      rcases hinv s hs q hq with h | h
      · exact Or.inl h
      · rcases List.mem_cons.mp h with h' | h'
        · exact Or.inl (h' ▸ hp)
        · exact Or.inr h'
    obtain ⟨h1, h2, h3, h4⟩ := ih hinv'
    have heq : traverseAux g (p :: rest) seen = traverseAux g rest seen := by
      simp [traverseAux, hp]
    rw [heq]
    refine ⟨h1, h2, ?_, ?_⟩
    · intro x hx
      rcases List.mem_cons.mp hx with h' | h'
      · exact Or.inl (h' ▸ hp)
      · exact h3 x h'
    · intro s hs q hq
      exact h4 s hs q hq
  | case3 seen p rest hp ih =>
    intro hinv
    have hinv' : ∀ s ∈ insert p seen, ∀ q ∈ succs g s,
        q ∈ insert p seen ∨ q ∈ (succs g p).reverse ++ rest := by
      intro s hs q hq
      rcases Finset.mem_insert.mp hs with h' | h'
      · exact Or.inr (List.mem_append.mpr (Or.inl (List.mem_reverse.mpr (h' ▸ hq))))
      · rcases hinv s h' q hq with h | h
        · exact Or.inl (Finset.mem_insert_of_mem h)
        · rcases List.mem_cons.mp h with h'' | h''
          · exact Or.inl (h'' ▸ Finset.mem_insert_self q seen)
          · exact Or.inr (List.mem_append.mpr (Or.inr h''))
    obtain ⟨h1, h2, h3, h4⟩ := ih hinv'
    have heq : traverseAux g (p :: rest) seen
        = p :: traverseAux g ((succs g p).reverse ++ rest) (insert p seen) := by
      simp [traverseAux, hp]
    rw [heq]
    refine ⟨?_, ?_, ?_, ?_⟩
    · refine List.nodup_cons.mpr ⟨?_, h1⟩
      intro hmem
      exact (h2 p hmem) (Finset.mem_insert_self p seen)
    · intro q hq
      rcases List.mem_cons.mp hq with h' | h'
      · exact h' ▸ hp
      · intro hq'
        exact (h2 q h') (Finset.mem_insert_of_mem hq')
    · intro x hx
      rcases List.mem_cons.mp hx with h' | h'
      · exact Or.inr (h' ▸ List.mem_cons_self p _)
      · rcases h3 x (List.mem_append.mpr (Or.inr h')) with h | h
        · rcases Finset.mem_insert.mp h with h'' | h''
          · exact Or.inr (h'' ▸ List.mem_cons_self p _)
          · exact Or.inl h''
        · exact Or.inr (List.mem_cons_of_mem _ h)
    · intro s hs q hq
      have hs' : s ∈ insert p seen
          ∨ s ∈ traverseAux g ((succs g p).reverse ++ rest) (insert p seen) := by
        rcases hs with h' | h'
        · exact Or.inl (Finset.mem_insert_of_mem h')
        · rcases List.mem_cons.mp h' with h'' | h''
          · exact Or.inl (h'' ▸ Finset.mem_insert_self p seen)
          · exact Or.inr h''
      rcases h4 s hs' q hq with h | h
      · rcases Finset.mem_insert.mp h with h'' | h''
        · exact Or.inr (h'' ▸ List.mem_cons_self p _)
        · exact Or.inl h''
      · exact Or.inr (List.mem_cons_of_mem _ h)

theorem traverseAux_sound (g : PkgGraph n) (R : Fin n → Prop)
    (hR : ∀ p, R p → ∀ q ∈ succs g p, R q) :
    ∀ (stack : List (Fin n)) (seen : Finset (Fin n)),
    (∀ p ∈ stack, R p) → ∀ q ∈ traverseAux g stack seen, R q := by
  intro stack seen
  induction stack, seen using traverseAux.induct g with
  | case1 seen =>
    intro _ q hq
    simp [traverseAux] at hq
  | case2 seen p rest hp ih =>
    intro hst q hq
    have heq : traverseAux g (p :: rest) seen = traverseAux g rest seen := by
      simp [traverseAux, hp]
    rw [heq] at hq
    exact ih (fun x hx => hst x (List.mem_cons_of_mem _ hx)) q hq
  | case3 seen p rest hp ih =>
    intro hst q hq
    have heq : traverseAux g (p :: rest) seen
        = p :: traverseAux g ((succs g p).reverse ++ rest) (insert p seen) := by
      simp [traverseAux, hp]
    rw [heq] at hq
    rcases List.mem_cons.mp hq with h' | h'
    · exact h' ▸ hst p (List.mem_cons_self p _)
    · refine ih ?_ q h'
      intro x hx
      rcases List.mem_append.mp hx with hx' | hx'
      · exact hR p (hst p (List.mem_cons_self p _)) x (List.mem_reverse.mp hx')
      · exact hst x (List.mem_cons_of_mem _ hx')

/-- Claim C1: for every package graph (cycles, self-imports and diamonds
included), `traverse` invokes the visitor exactly once per distinct
reachable package (roots included): the visit list has no duplicates, its
members are exactly the reachable packages, and its length is the number of
distinct reachable identities. -/
theorem traverse_visit_once (g : PkgGraph n) (roots : List (Fin n)) :
    (traverse g roots).Nodup
    ∧ (∀ p, p ∈ traverse g roots ↔ Reaches g roots p)
    ∧ (traverse g roots).length = Set.ncard {p | Reaches g roots p} := by
  obtain ⟨h1, _, h3, h4⟩ := traverseAux_spec g roots.reverse ∅ (by simp)
  have hmem : ∀ p, p ∈ traverse g roots ↔ Reaches g roots p := by
    intro p
    constructor
    · intro hp
      refine traverseAux_sound g (Reaches g roots) ?_ roots.reverse ∅ ?_ p hp
      · intro a ha q hq
        exact Reaches.step ha (mem_succs.mp hq)
      · intro x hx
        exact Reaches.root (List.mem_reverse.mp hx)
    · intro hr
      induction hr with
      | root h =>
        rcases h3 _ (List.mem_reverse.mpr h) with h' | h'
        · simp at h'
        · exact h'
      | step _ himp ih =>
        rcases h4 _ (Or.inr ih) _ (mem_succs.mpr himp) with h' | h'
        · simp at h'
        · exact h'
  refine ⟨h1, hmem, ?_⟩
  have hset : {p | Reaches g roots p} = ↑(traverse g roots).toFinset := by
    ext p
    simp only [Set.mem_setOf_eq, Finset.coe_sort_coe, List.coe_toFinset,
      Set.mem_setOf_eq, List.mem_toFinset]
    exact (hmem p).symm
  rw [hset, Set.ncard_coe_Finset]
  exact (List.toFinset_card_of_nodup h1).symm

/-! ## Universe diff -/

/-- Claim C3: the test-only computation is pure set subtraction on module
identifiers: `difference a b` is the set difference `a \ b` (so
`difference withTests withoutTests = withTests \ withoutTests`), and on
equal universes it is empty.  The definition consumes only the two node
sets — no edge data — and, being a pure function, mutates nothing. -/
theorem difference_eq_sdiff (a b : Finset String) :
    difference a b = a \ b ∧ difference a a = ∅ := by
  constructor
  · ext k
    simp [difference, Finset.mem_sdiff]
  · ext k
    simp [difference]

/-! ## Module projection -/

theorem foldl_preserve {α : Type _} {β : Type _} (P : α → Prop) (f : α → β → α)
    (hf : ∀ a x, P a → P (f a x)) :
    ∀ (l : List β) (a : α), P a → P (l.foldl f a) := by
  intro l
  induction l with
  | nil => intro a ha; exact ha
  | cons x xs ih => intro a ha; exact ih _ (hf a x ha)

theorem buildEdgesStep_preserve (g : PkgGraph n) (p : Fin n)
    (st : Finset (String × String) × Finset String)
    (h : (∀ e ∈ st.1, e.1 ≠ "" ∧ e.2 ≠ "" ∧ e.1 ≠ e.2) ∧ ∀ m ∈ st.2, m ≠ "") :
    (∀ e ∈ (buildEdgesStep g st p).1, e.1 ≠ "" ∧ e.2 ≠ "" ∧ e.1 ≠ e.2)
    ∧ ∀ m ∈ (buildEdgesStep g st p).2, m ≠ "" := by
  unfold buildEdgesStep
  by_cases h0 : modulePathOf g (some p) = ""
  · simpa [h0] using h
  · simp only [h0, if_false]
    refine foldl_preserve
      (fun st2 : Finset (String × String) × Finset String =>
        (∀ e ∈ st2.1, e.1 ≠ "" ∧ e.2 ≠ "" ∧ e.1 ≠ e.2) ∧ ∀ m ∈ st2.2, m ≠ "")
      _ ?_ (g.imports p) _ ?_
    · intro st2 imp hst2
      unfold edgeInsert
      by_cases h1 : modulePathOf g imp = "" ∨ modulePathOf g imp = modulePathOf g (some p)
      · simpa [h1] using hst2
      · push_neg at h1
        simp only [h1.1, h1.2, or_self, if_false]
        constructor
        · intro e he
          rcases Finset.mem_insert.mp he with he' | he'
          · subst he'
            exact ⟨h0, h1.1, fun hc => h1.2 hc.symm⟩
          · exact hst2.1 e he'
        · intro m hm
          rcases Finset.mem_insert.mp hm with hm' | hm'
          · exact hm' ▸ h1.1
          · exact hst2.2 m hm'
    · refine ⟨h.1, ?_⟩
      intro m hm
      rcases Finset.mem_insert.mp hm with hm' | hm'
      · exact hm' ▸ h0
      · exact h.2 m hm'

/-- Claim C4: `buildEdges` never records a self-loop module edge (an import
between two packages of the same module), and no node or edge ever carries
the empty module identifier, so packages without an owning module are
invisible in the projected graph. -/
theorem buildEdges_no_self_loop_no_empty (g : PkgGraph n) (pkgs : List (Fin n)) :
    (∀ e ∈ (buildEdges g pkgs).1, e.1 ≠ "" ∧ e.2 ≠ "" ∧ e.1 ≠ e.2)
    ∧ ∀ m ∈ (buildEdges g pkgs).2, m ≠ "" := by
  unfold buildEdges
  refine foldl_preserve
    (fun st : Finset (String × String) × Finset String =>
      (∀ e ∈ st.1, e.1 ≠ "" ∧ e.2 ≠ "" ∧ e.1 ≠ e.2) ∧ ∀ m ∈ st.2, m ≠ "")
    _ ?_ (traverse g pkgs) _ (by simp)
  intro st x hst
  exact buildEdgesStep_preserve g x st hst

/-! ## Nil import entries are skipped, never dereferenced -/

/-- The same graph with the nil entries removed from every import list. -/
def dropNilImports (g : PkgGraph n) : PkgGraph n :=
  { g with imports := fun p => (g.imports p).filter (fun o => o.isSome) }

theorem filterMap_id_filter_isSome {α : Type _} (l : List (Option α)) :
    (l.filter (fun o => o.isSome)).filterMap id = l.filterMap id := by
  induction l with
  | nil => rfl
  | cons o rest ih =>
    cases o with
    | none => simpa using ih
    | some a => simpa using ih

theorem succs_dropNilImports (g : PkgGraph n) (p : Fin n) :
    succs (dropNilImports g) p = succs g p := by
  simp only [succs, dropNilImports]
  exact filterMap_id_filter_isSome (g.imports p)

theorem traverseAux_dropNilImports (g : PkgGraph n) :
    ∀ (stack : List (Fin n)) (seen : Finset (Fin n)),
    traverseAux (dropNilImports g) stack seen = traverseAux g stack seen := by
  intro stack seen
  induction stack, seen using traverseAux.induct g with
  | case1 seen => simp [traverseAux]
  | case2 seen p rest hp ih =>
    rw [show traverseAux g (p :: rest) seen = traverseAux g rest seen from by
      simp [traverseAux, hp]]
    rw [show traverseAux (dropNilImports g) (p :: rest) seen
        = traverseAux (dropNilImports g) rest seen from by simp [traverseAux, hp]]
    exact ih
  | case3 seen p rest hp ih =>
    rw [show traverseAux g (p :: rest) seen
        = p :: traverseAux g ((succs g p).reverse ++ rest) (insert p seen) from by
      simp [traverseAux, hp]]
    rw [show traverseAux (dropNilImports g) (p :: rest) seen
        = p :: traverseAux (dropNilImports g)
            ((succs (dropNilImports g) p).reverse ++ rest) (insert p seen) from by
      simp [traverseAux, hp]]
    rw [succs_dropNilImports, ih]

theorem modulePathOf_dropNilImports (g : PkgGraph n) (o : Option (Fin n)) :
    modulePathOf (dropNilImports g) o = modulePathOf g o := by
  cases o <;> rfl

theorem edgeInsert_dropNilImports (g : PkgGraph n) (fromP : String)
    (st2 : Finset (String × String) × Finset String) (imp : Option (Fin n)) :
    edgeInsert (dropNilImports g) fromP st2 imp = edgeInsert g fromP st2 imp := by
  unfold edgeInsert
  rw [modulePathOf_dropNilImports]

theorem edgeInsert_none (g : PkgGraph n) (fromP : String)
    (st2 : Finset (String × String) × Finset String) :
    edgeInsert g fromP st2 none = st2 := by
  simp [edgeInsert, modulePathOf]

theorem foldl_edgeInsert_filter (g : PkgGraph n) (fromP : String) :
    ∀ (l : List (Option (Fin n))) (st0 : Finset (String × String) × Finset String),
    (l.filter (fun o => o.isSome)).foldl (edgeInsert g fromP) st0
      = l.foldl (edgeInsert g fromP) st0 := by
  intro l
  induction l with
  | nil => intro st0; rfl
  | cons o rest ih =>
    intro st0
    cases o with
    | none => simpa [edgeInsert_none] using ih st0
    | some a => simpa using ih (edgeInsert g fromP st0 (some a))

theorem buildEdgesStep_dropNilImports (g : PkgGraph n) (p : Fin n)
    (st : Finset (String × String) × Finset String) :
    buildEdgesStep (dropNilImports g) st p = buildEdgesStep g st p := by
  unfold buildEdgesStep
  have himp : (dropNilImports g).imports p = (g.imports p).filter (fun o => o.isSome) :=
    rfl
  rw [modulePathOf_dropNilImports, himp]
  by_cases h0 : modulePathOf g (some p) = ""
  · simp [h0]
  · simp only [h0, if_false]
    have hfun : edgeInsert (dropNilImports g) (modulePathOf g (some p))
        = edgeInsert g (modulePathOf g (some p)) := by
      funext st2 imp
      exact edgeInsert_dropNilImports g _ st2 imp
    rw [hfun]
    exact foldl_edgeInsert_filter g _ (g.imports p) _

/-- Claim C9: nil entries in an import list are skipped defensively, never
dereferenced and never fatal: `modulePathOf` maps a nil package to the empty
identifier (which `buildEdges` then skips), and removing every nil entry
from the graph changes neither the traversal (no nil entry is ever
enqueued) nor the projected module graph. -/
theorem nil_imports_skipped (g : PkgGraph n) (roots pkgs : List (Fin n)) :
    modulePathOf g none = ""
    ∧ traverse (dropNilImports g) roots = traverse g roots
    ∧ buildEdges (dropNilImports g) pkgs = buildEdges g pkgs := by
  refine ⟨rfl, ?_, ?_⟩
  · exact traverseAux_dropNilImports g roots.reverse ∅
  · unfold buildEdges
    rw [show traverse (dropNilImports g) pkgs = traverse g pkgs from
      traverseAux_dropNilImports g pkgs.reverse ∅]
    congr 1
    funext st x
    exact buildEdgesStep_dropNilImports g x st

/-! ## Deterministic renderer -/

theorem sortStrings_sorted (l : List String) : (sortStrings l).Sorted (· ≤ ·) :=
  List.sorted_insertionSort _ l

theorem sortStrings_perm (l : List String) : (sortStrings l).Perm l :=
  List.perm_insertionSort _ l

theorem sortStrings_eq_of_perm {l l' : List String} (h : l.Perm l') :
    sortStrings l = sortStrings l' :=
  List.eq_of_perm_of_sorted
    ((sortStrings_perm l).trans (h.trans (sortStrings_perm l').symm))
    (sortStrings_sorted l) (sortStrings_sorted l')

theorem mem_sortStrings {l : List String} {x : String} :
    x ∈ sortStrings l ↔ x ∈ l :=
  (sortStrings_perm l).mem_iff

theorem contains_eq_of_perm {l l' : List String} (h : l.Perm l') (x : String) :
    l.contains x = l'.contains x := by
  show l.elem x = l'.elem x
  rw [Bool.eq_iff_iff]
  rw [List.elem_iff, List.elem_iff]
  exact h.mem_iff

theorem edgePairs_congr {edges edges' : List (String × List String)}
    (he : (edges.map Prod.fst).Perm (edges'.map Prod.fst))
    (het : ∀ f ∈ edges.map Prod.fst, (tosOf edges f).Perm (tosOf edges' f)) :
    edgePairs edges = edgePairs edges' := by
  unfold edgePairs
  rw [show sortStrings (edges.map Prod.fst) = sortStrings (edges'.map Prod.fst) from
    sortStrings_eq_of_perm he]
  congr 1
  apply List.map_congr_left
  intro f hf
  have hf' : f ∈ edges.map Prod.fst := he.mem_iff.mpr (mem_sortStrings.mp hf)
  rw [sortStrings_eq_of_perm (het f hf')]

/-- Claim C2: rendering the same graph twice is byte-identical: `writeDot`
output does not depend on the enumeration order of the node set, the edge
map, or the test-only set (only on their contents), and node indices are
ascending positions in the lexicographically sorted node list. -/
theorem writeDot_deterministic (mainMod : String)
    (edges edges' : List (String × List String))
    (nodes nodes' testOnly testOnly' : List String)
    (hn : nodes.Perm nodes')
    (he : (edges.map Prod.fst).Perm (edges'.map Prod.fst))
    (het : ∀ f ∈ edges.map Prod.fst, (tosOf edges f).Perm (tosOf edges' f))
    (ht : testOnly.Perm testOnly') :
    writeDot mainMod edges nodes testOnly = writeDot mainMod edges' nodes' testOnly'
    ∧ (sortStrings nodes).Sorted (· ≤ ·)
    ∧ (sortStrings nodes).enum.map Prod.fst = List.range (sortStrings nodes).length := by
  have hsn : sortStrings nodes = sortStrings nodes' := sortStrings_eq_of_perm hn
  have hdecl : nodeDeclLines nodes = nodeDeclLines nodes' := by
    unfold nodeDeclLines
    rw [hsn]
  have hedge : edgeLinesOf edges nodes = edgeLinesOf edges' nodes' := by
    unfold edgeLinesOf
    rw [edgePairs_congr he het, hsn]
  have hto : chooseTestOnlyDep mainMod testOnly = chooseTestOnlyDep mainMod testOnly' := by
    funext name
    unfold chooseTestOnlyDep
    rw [contains_eq_of_perm ht]
  have hrd : chooseRegularDep mainMod testOnly = chooseRegularDep mainMod testOnly' := by
    funext name
    unfold chooseRegularDep
    rw [contains_eq_of_perm ht]
  refine ⟨?_, sortStrings_sorted nodes, List.enum_map_fst _⟩
  unfold writeDot
  rw [hdecl, hedge, hsn, hto, hrd]

theorem writeDot_deterministic_witness :
    ((["b", "a"] : List String).Perm ["a", "b"]
     ∧ ([("a", ["c", "b"])].map Prod.fst).Perm
         (([("a", ["b", "c"])] : List (String × List String)).map Prod.fst)
     ∧ (∀ f ∈ ([("a", ["c", "b"])] : List (String × List String)).map Prod.fst,
         (tosOf [("a", ["c", "b"])] f).Perm (tosOf [("a", ["b", "c"])] f))
     ∧ (["b"] : List String).Perm ["b"])
    ∧ (writeDot "a" [("a", ["c", "b"])] ["b", "a"] ["b"]
        = writeDot "a" [("a", ["b", "c"])] ["a", "b"] ["b"]
       ∧ (sortStrings ["b", "a"]).Sorted (· ≤ ·)
       ∧ (sortStrings ["b", "a"]).enum.map Prod.fst
          = List.range (sortStrings ["b", "a"]).length) :=
  ⟨⟨by decide, by decide, by decide, by decide⟩,
   writeDot_deterministic "a" [("a", ["c", "b"])] [("a", ["b", "c"])]
     ["b", "a"] ["a", "b"] ["b"] ["b"]
     (by decide) (by decide) (by decide) (by decide)⟩

/-- Claim C5: the emitted edge lines are grouped by source with sources in
lexicographic order and, within a source, targets in lexicographic order
(together: the emitted pair sequence is sorted in the lexicographic pair
order), and the emission sequence is unchanged under re-enumeration of the
internal edge maps. -/
theorem edge_lines_grouped_sorted_stable (edges edges' : List (String × List String))
    (hk : (edges.map Prod.fst).Nodup)
    (he : (edges.map Prod.fst).Perm (edges'.map Prod.fst))
    (het : ∀ f ∈ edges.map Prod.fst, (tosOf edges f).Perm (tosOf edges' f)) :
    (edgePairs edges).Pairwise lexLePair
    ∧ edgePairs edges = edgePairs edges' := by
  refine ⟨?_, edgePairs_congr he het⟩
  unfold edgePairs
  rw [List.pairwise_flatten]
  constructor
  · intro l hl
    obtain ⟨f, hf, rfl⟩ := List.mem_map.mp hl
    rw [List.pairwise_map]
    refine (sortStrings_sorted (tosOf edges f)).imp ?_
    intro a b hab
    exact Or.inr ⟨rfl, hab⟩
  · rw [List.pairwise_map]
    have hfroms : (sortStrings (edges.map Prod.fst)).Pairwise (· < ·) := by
      have h1 : (sortStrings (edges.map Prod.fst)).Pairwise (· ≤ ·) :=
        sortStrings_sorted _
      have h2 : (sortStrings (edges.map Prod.fst)).Nodup :=
        (sortStrings_perm _).nodup_iff.mpr hk
      exact (h1.and h2).imp (fun h => lt_of_le_of_ne h.1 h.2)
    refine hfroms.imp ?_
    intro f1 f2 h12 x hx y hy
    obtain ⟨t1, _, rfl⟩ := List.mem_map.mp hx
    obtain ⟨t2, _, rfl⟩ := List.mem_map.mp hy
    exact Or.inl h12

theorem edge_lines_grouped_sorted_stable_witness :
    ((([("b", ["x"]), ("a", ["d", "c"])] : List (String × List String)).map Prod.fst).Nodup
     ∧ (([("b", ["x"]), ("a", ["d", "c"])] : List (String × List String)).map Prod.fst).Perm
         (([("a", ["c", "d"]), ("b", ["x"])] : List (String × List String)).map Prod.fst)
     ∧ (∀ f ∈ ([("b", ["x"]), ("a", ["d", "c"])] : List (String × List String)).map Prod.fst,
         (tosOf [("b", ["x"]), ("a", ["d", "c"])] f).Perm
           (tosOf [("a", ["c", "d"]), ("b", ["x"])] f)))
    ∧ ((edgePairs [("b", ["x"]), ("a", ["d", "c"])]).Pairwise lexLePair
       ∧ edgePairs [("b", ["x"]), ("a", ["d", "c"])]
          = edgePairs [("a", ["c", "d"]), ("b", ["x"])]) :=
  ⟨⟨by decide, by decide, by decide⟩,
   edge_lines_grouped_sorted_stable
     [("b", ["x"]), ("a", ["d", "c"])] [("a", ["c", "d"]), ("b", ["x"])]
     (by decide) (by decide) (by decide)⟩

/-! ## Classification -/

/-- Claim C6: every rendered node satisfies exactly one of the three
classification predicates `writeDot` uses, and the precedence puts the
root/main module first: a node equal to the main module is classified
`mainModule` and never `testOnlyDep` (nor `regularDep`), even when it is a
member of the test-only set. -/
theorem classification_precedence (mainMod : String) (testOnly : List String)
    (name : String) :
    ((chooseMainModule mainMod name).toNat
      + (chooseTestOnlyDep mainMod testOnly name).toNat
      + (chooseRegularDep mainMod testOnly name).toNat = 1)
    ∧ (name = mainMod →
        chooseMainModule mainMod name = true
        ∧ chooseTestOnlyDep mainMod testOnly name = false
        ∧ chooseRegularDep mainMod testOnly name = false) := by
  unfold chooseMainModule chooseTestOnlyDep chooseRegularDep
  by_cases h : name = mainMod
  · simp [h]
  · have h1 : (name == mainMod) = false := beq_eq_false_iff_ne.mpr h
    have h2 : (name != mainMod) = true := bne_iff_ne.mpr h
    cases hcont : testOnly.contains name <;> simp [h1, h2, hcont, h]

/-! ## Empty classification groups -/

theorem snd_mem_of_mem_enumFrom {α : Type _} {x : Nat × α} :
    ∀ (l : List α) (k : Nat), x ∈ l.enumFrom k → x.2 ∈ l := by
  intro l
  induction l with
  | nil =>
    intro k h
    simp at h
  | cons a as ih =>
    intro k h
    rw [List.enumFrom] at h
    rcases List.mem_cons.mp h with h' | h'
    · rw [h']
      exact List.mem_cons_self a as
    · exact List.mem_cons_of_mem _ (ih (k + 1) h')

theorem mem_enumFrom_of_mem {α : Type _} {a : α} :
    ∀ (l : List α) (k : Nat), a ∈ l → ∃ i, (i, a) ∈ l.enumFrom k := by
  intro l
  induction l with
  | nil =>
    intro k h
    simp at h
  | cons x xs ih =>
    intro k h
    rcases List.mem_cons.mp h with h' | h'
    · subst h'
      exact ⟨k, by rw [List.enumFrom]; exact List.mem_cons_self _ _⟩
    · obtain ⟨i, hi⟩ := ih (k + 1) h'
      exact ⟨i, by rw [List.enumFrom]; exact List.mem_cons_of_mem _ hi⟩

/-- Claim C7 counterexample: the older revision's renderer (src/main.go
lines 175-189) emits its `classDef red` style declaration even when the
test-only classification group is empty: on empty input the rendered output
is the header plus that style declaration line, not the header alone. -/
theorem empty_group_classdef_emitted :
    writeDotV1 [] [] []
      = "graph LR\n    classDef red fill:#ffdddd,stroke:#333,stroke-width:1px;\n"
    ∧ writeDotV1 [] [] [] ≠ "graph LR\n" := by
  constructor
  · rfl
  · decide

/-- Claim C7 (amended): in the current revision's renderer
(src/unnamed/part_000) a classification group with zero members contributes
nothing to the output — neither a `classDef` style declaration line nor a
`class` membership line; in the older revision (src/main.go) an empty
test-only group suppresses the `class` membership line, but the single
hard-coded `classDef red` style declaration line is emitted
unconditionally. -/
theorem empty_group_emits_nothing_amended
    (allNodes : List String) (className color : String) (choose : String → Bool)
    (edges : List (String × List String)) (nodes : List String)
    (hchoose : ∀ name ∈ allNodes, choose name = false) :
    nodeColor allNodes className color choose = ""
    ∧ ∃ s, writeDotV1 edges nodes []
        = s ++ "    classDef red fill:#ffdddd,stroke:#333,stroke-width:1px;\n" := by
  constructor
  · unfold nodeColor
    have hfil : allNodes.enum.filter (fun p => choose p.2) = [] := by
      rw [List.filter_eq_nil_iff]
      intro p hp
      rw [hchoose p.2 (snd_mem_of_mem_enumFrom allNodes 0 hp)]
      simp
    rw [hfil]
    simp
  · refine ⟨"graph LR\n" ++ String.join (nodeDeclLines nodes)
      ++ String.join (edgeLinesOf edges nodes), ?_⟩
    unfold writeDotV1
    simp

theorem empty_group_emits_nothing_amended_witness :
    (∀ name ∈ (["a", "b"] : List String), (fun _ : String => false) name = false)
    ∧ (nodeColor ["a", "b"] "testOnlyDep" testColor (fun _ => false) = ""
       ∧ ∃ s, writeDotV1 [] ["a"] []
           = s ++ "    classDef red fill:#ffdddd,stroke:#333,stroke-width:1px;\n") :=
  ⟨by decide,
   empty_group_emits_nothing_amended ["a", "b"] "testOnlyDep" testColor
     (fun _ => false) [] ["a"] (by decide)⟩

/-! ## Test-only modules always appear as nodes -/

/-- Claim C10: `main` forces every test-only module into the node set before
rendering, so a test-only module — even one with no incident edges in the
test-inclusive module graph — is a member of the rendered node set and
receives a node declaration line. -/
theorem testOnly_nodes_rendered (nodes testOnly : Finset String) (m : String)
    (hm : m ∈ testOnly) :
    m ∈ nodesWithTestOnly nodes testOnly
    ∧ ∃ i, nodeLine i m
        ∈ nodeDeclLines ((nodesWithTestOnly nodes testOnly).sort (· ≤ ·)) := by
  have hmem : m ∈ nodesWithTestOnly nodes testOnly :=
    Finset.mem_union_right _ hm
  refine ⟨hmem, ?_⟩
  have h1 : m ∈ (nodesWithTestOnly nodes testOnly).sort (· ≤ ·) :=
    (Finset.mem_sort _).mpr hmem
  have h2 : m ∈ sortStrings ((nodesWithTestOnly nodes testOnly).sort (· ≤ ·)) :=
    mem_sortStrings.mpr h1
  obtain ⟨i, hi⟩ := mem_enumFrom_of_mem _ 0 h2
  refine ⟨i, ?_⟩
  unfold nodeDeclLines
  exact List.mem_map.mpr ⟨(i, m), hi, rfl⟩

theorem testOnly_nodes_rendered_witness :
    ("t" ∈ ({"t"} : Finset String))
    ∧ ("t" ∈ nodesWithTestOnly ∅ {"t"}
       ∧ ∃ i, nodeLine i "t"
           ∈ nodeDeclLines ((nodesWithTestOnly ∅ {"t"}).sort (· ≤ ·))) :=
  ⟨by decide, testOnly_nodes_rendered ∅ {"t"} "t" (by decide)⟩

/-! ## Error handling: resolver failures abort the run -/

/-- Claim C8: whenever the resolver reports an error (a failed load or
per-package diagnostics) on either of the two loads, the run aborts as
`Except.error` — modelling Go's `log.Fatal`, which reports to standard
error and exits with a non-zero status — and no diagram output is produced:
`mainRun` never returns `Except.ok`. -/
theorem resolver_error_aborts {n1 n2 : Nat} (g1 : PkgGraph n1) (r1 : ResolveResult n1)
    (g2 : PkgGraph n2) (r2 : ResolveResult n2)
    (h : r1.loadErr ≠ none ∨ 0 < r1.numErrors ∨ r2.loadErr ≠ none ∨ 0 < r2.numErrors) :
    (∃ e, mainRun g1 r1 g2 r2 = Except.error e)
    ∧ ∀ out, mainRun g1 r1 g2 r2 ≠ Except.ok out := by
  have habort : ∀ {m : Nat} (g : PkgGraph m) (r : ResolveResult m),
      r.loadErr ≠ none ∨ 0 < r.numErrors → ∃ e, loadModuleSet g r = Except.error e := by
    intro m g r hr
    unfold loadModuleSet
    cases hre : r.loadErr with
    | some e => exact ⟨"packages.Load: " ++ e, rfl⟩
    | none =>
      rcases hr with hr | hr
      · exact absurd hre hr
      · rw [if_pos hr]
        exact ⟨_, rfl⟩
  have hex : ∃ e, mainRun g1 r1 g2 r2 = Except.error e := by
    unfold mainRun
    rcases h with h | h | h | h
    · obtain ⟨e, he⟩ := habort g1 r1 (Or.inl h)
      rw [he]
      exact ⟨e, rfl⟩
    · obtain ⟨e, he⟩ := habort g1 r1 (Or.inr h)
      rw [he]
      exact ⟨e, rfl⟩
    · cases h1 : loadModuleSet g1 r1 with
      | error e => exact ⟨e, rfl⟩
      | ok v =>
        obtain ⟨mm, tp, mods⟩ := v
        obtain ⟨e, he⟩ := habort g2 r2 (Or.inl h)
        rw [he]
        exact ⟨e, rfl⟩
    · cases h1 : loadModuleSet g1 r1 with
      | error e => exact ⟨e, rfl⟩
      | ok v =>
        obtain ⟨mm, tp, mods⟩ := v
        obtain ⟨e, he⟩ := habort g2 r2 (Or.inr h)
        rw [he]
        exact ⟨e, rfl⟩
  refine ⟨hex, ?_⟩
  intro out hout
  obtain ⟨e, he⟩ := hex
  rw [he] at hout
  exact Except.noConfusion hout

theorem resolver_error_aborts_witness :
    (errResolve.loadErr ≠ none ∨ 0 < errResolve.numErrors
      ∨ okResolve.loadErr ≠ none ∨ 0 < okResolve.numErrors)
    ∧ ((∃ e, mainRun emptyGraph errResolve emptyGraph okResolve = Except.error e)
       ∧ ∀ out, mainRun emptyGraph errResolve emptyGraph okResolve ≠ Except.ok out) :=
  ⟨Or.inl (by decide),
   resolver_error_aborts emptyGraph errResolve emptyGraph okResolve
     (Or.inl (by decide))⟩

end Gotestdeps
